import Mathlib

/-!
Verification of the koan mission-queue core against its specification.

The mission document is a plain text file: a title, `##` section headers
(Pending / In Progress / Done, with French aliases), and `- ` mission lines
carrying lifecycle stamps.  We embed the document model and the operations
the specification describes, translate the repository code where it is
present (`extract_mission.py`, `app/utils.py`), and model from the
specification the operations whose module is not part of the source tree
(`app/missions.py`, `recover.py`), then prove or refute each claim.

Lines are embedded as `List Char` so that every text operation is a plain
recursive function amenable to proof and to kernel evaluation.
-/

/-- One line of the mission document, as a list of characters. -/
abbrev Line := List Char

/-- Convert a string literal to a `Line`. -/
def str (s : String) : Line := s.toList

/-- Whitespace test used by the embedded `strip` (ASCII whitespace). -/
def wsC (c : Char) : Bool := c == ' ' || c == '\t' || c == '\n' || c == '\r'

/-- Remove trailing whitespace, embedding the tail half of Python `str.strip`. -/
def trimEnd (l : Line) : Line := (l.reverse.dropWhile wsC).reverse

/-- Embedding of Python `str.strip` on a line (ASCII whitespace). -/
def trimL (l : Line) : Line := trimEnd (l.dropWhile wsC)

/-- A line is blank when stripping leaves nothing. -/
def isBlankLine (l : Line) : Bool := (trimL l).isEmpty

/-- Embedding of Python `str.lower` (ASCII case folding suffices here). -/
def lowerL (l : Line) : Line := l.map Char.toLower

/-- Boolean test that `p` is a prefix of `l` (Python `str.startswith`). -/
def startsL : Line → Line → Bool
  | [], _ => true
  | _ :: _, [] => false
  | a :: p, b :: l => a == b && startsL p l

/-- Boolean test that `pat` occurs as a contiguous substring of the line
(Python `in` on strings); for an empty `pat` this is always true. -/
def hasSub (pat : Line) : Line → Bool
  | [] => pat.isEmpty
  | c :: t => startsL pat (c :: t) || hasSub pat t

/-- Number of positions of the line at which `pat` starts (used to count
stamp markers; markers never overlap themselves). -/
def countSub (pat : Line) : Line → Nat
  | [] => 0
  | c :: t => (if startsL pat (c :: t) then 1 else 0) + countSub pat t

theorem startsL_append {p l : Line} (r : Line) (h : startsL p l = true) :
    startsL p (l ++ r) = true := by
  induction p generalizing l with
  | nil => simp [startsL]
  | cons a p ih =>
    cases l with
    | nil => simp [startsL] at h
    | cons b t =>
      simp only [startsL, Bool.and_eq_true] at h ⊢
      exact ⟨h.1, ih h.2⟩

theorem startsL_self_append (p r : Line) : startsL p (p ++ r) = true := by
  induction p with
  | nil => simp [startsL]
  | cons a p ih => simp [startsL, ih]

theorem hasSub_append_right {pat l : Line} (r : Line) (h : hasSub pat l = true) :
    hasSub pat (l ++ r) = true := by
  induction l with
  | nil =>
    simp only [hasSub, List.isEmpty_iff] at h
    subst h
    cases r with
    | nil => simp [hasSub]
    | cons c t => simp [hasSub, startsL]
  | cons c t ih =>
    simp only [hasSub, Bool.or_eq_true] at h ⊢
    rcases h with h | h
    · exact Or.inl (startsL_append r h)
    · exact Or.inr (ih h)

theorem hasSub_middle (pat a b : Line) : hasSub pat (a ++ pat ++ b) = true := by
  induction a with
  | nil =>
    cases h : pat ++ b with
    | nil =>
      rcases List.append_eq_nil.mp h with ⟨h1, h2⟩
      subst h1
      subst h2
      simp [hasSub]
    | cons c t =>
      simp only [List.nil_append, h, hasSub, Bool.or_eq_true]
      exact Or.inl (h ▸ startsL_self_append pat b)
  | cons c t ih =>
    simp only [List.cons_append, hasSub, Bool.or_eq_true]
    exact Or.inr ih

theorem hasSub_of_countSub_one {pat l : Line} (h : countSub pat l = 1) :
    hasSub pat l = true := by
  induction l with
  | nil => simp [countSub] at h
  | cons c t ih =>
    simp only [countSub] at h
    simp only [hasSub, Bool.or_eq_true]
    by_cases hs : startsL pat (c :: t) = true
    · exact Or.inl hs
    · simp [hs] at h
      exact Or.inr (ih h)

/-!
Timestamp tracker.  `app/missions.py` is not part of the source tree; the
definitions below are modelled from the specification (§4.3, §6) with the
marker glyphs and formats pinned by `src/koan/tests/test_mission_timestamps.py`:
a queued stamp `⏳(YYYY-MM-DDTHH:MM)`, a started stamp `▶(YYYY-MM-DDTHH:MM)`,
and a completion stamp `✅ (YYYY-MM-DD HH:MM)` or `❌ (YYYY-MM-DD HH:MM)`.
-/

/-- A calendar timestamp at minute precision. -/
structure DT where
  year : Nat
  month : Nat
  day : Nat
  hour : Nat
  minute : Nat
deriving DecidableEq, Repr

/-- Whether a year is a leap year (Gregorian rule). -/
def isLeap (y : Nat) : Bool := (y % 4 == 0 && y % 100 != 0) || y % 400 == 0

/-- Days in a month, used to validate parsed timestamps. -/
def daysInMonth (y m : Nat) : Nat :=
  if m == 2 then (if isLeap y then 29 else 28)
  else if m == 4 || m == 6 || m == 9 || m == 11 then 30
  else 31

/-- Value of a decimal digit character, absent for a non-digit. -/
def digitVal (c : Char) : Option Nat :=
  if c.isDigit then some (c.toNat - 48) else none

/-- Modelled from the spec: parse a stamp payload in the fixed format
`YYYY-MM-DD<sep>HH:MM` (sep is `T` for queued/started, a space for the
completion stamp).  The whole payload must match and the fields must form a
valid calendar time, else the result is absent — a parsing failure is never
an error (spec §7, *MalformedTimestamp*). -/
def parseTS (sep : Char) (cs : Line) : Option DT :=
  match cs with
  | [y1, y2, y3, y4, s1, m1, m2, s2, d1, d2, sp, h1, h2, co, n1, n2] =>
    match digitVal y1, digitVal y2, digitVal y3, digitVal y4,
          digitVal m1, digitVal m2, digitVal d1, digitVal d2,
          digitVal h1, digitVal h2, digitVal n1, digitVal n2 with
    | some a, some b, some c, some d, some e, some f,
      some g, some h, some i, some j, some k, some l =>
      if s1 = '-' ∧ s2 = '-' ∧ sp = sep ∧ co = ':' then
        let y := ((a * 10 + b) * 10 + c) * 10 + d
        let mo := e * 10 + f
        let dy := g * 10 + h
        let hr := i * 10 + j
        let mi := k * 10 + l
        if 1 ≤ mo ∧ mo ≤ 12 ∧ 1 ≤ dy ∧ dy ≤ daysInMonth y mo ∧ hr ≤ 23 ∧ mi ≤ 59 then
          some ⟨y, mo, dy, hr, mi⟩
        else none
      else none
    | _, _, _, _, _, _, _, _, _, _, _, _ => none
  | _ => none

/-- Drop the line through the first occurrence of `pat`; absent when `pat`
does not occur. -/
def dropThroughSub (pat : Line) : Line → Option Line
  | [] => if pat.isEmpty then some [] else none
  | c :: t =>
    if startsL pat (c :: t) then some ((c :: t).drop pat.length)
    else dropThroughSub pat t

/-- Modelled from the spec: the text between a positional marker and the
closing parenthesis, absent when the marker or the closing parenthesis is
missing (spec §4.3: extraction parses stamps by positional markers). -/
def findPayload (marker : Line) (cs : Line) : Option Line :=
  match dropThroughSub marker cs with
  | none => none
  | some rest =>
    if (rest.dropWhile (fun c => !(c == ')'))).isEmpty then none
    else some (rest.takeWhile (fun c => !(c == ')')))

/-- The three lifecycle timestamps of a mission line, each optional. -/
structure MissionTS where
  queued : Option DT
  started : Option DT
  completed : Option DT
deriving DecidableEq, Repr

/-- Modelled from the spec: `extract_timestamps` of `app/missions.py` (not in
the source tree).  Each field degrades to absent when its marker is missing
or its payload fails to parse (spec §4.3, §7). -/
def extract_timestamps (line : Line) : MissionTS :=
  { queued :=
      match findPayload (str ("⏳(")) line with
      | none => none
      | some p => parseTS 'T' p
    started :=
      match findPayload (str ("▶(")) line with
      | none => none
      | some p => parseTS 'T' p
    completed :=
      match findPayload (str ("✅ (")) line with
      | some p => parseTS ' ' p
      | none =>
        match findPayload (str ("❌ (")) line with
        | none => none
        | some p => parseTS ' ' p }

/-- Minute count of a timestamp under a lexicographic encoding: strictly
monotone in (year, month, day, hour, minute) for in-range fields, so
durations have the correct sign and same-day durations the exact value. -/
def toMin (t : DT) : Nat :=
  (((t.year * 13 + t.month) * 32 + t.day) * 24 + t.hour) * 60 + t.minute

/-- Signed difference of two timestamps, in minutes. -/
def dmin (a b : DT) : Int := (toMin a : Int) - (toMin b : Int)

/-- Modelled from the spec: `format_duration` of `app/missions.py` (not in
the source tree); renders a second count per the test table ("< 1m", "5m",
"1h 30m"). -/
def format_duration (secs : Int) : String :=
  if secs < 60 then "< 1m"
  else
    let m := secs.toNat / 60
    if m < 60 then toString m ++ ("m")
    else
      let h := m / 60
      let r := m % 60
      if r == 0 then toString h ++ ("h")
      else toString h ++ ("h ") ++ toString r ++ ("m")

/-- Modelled from the spec: `mission_timing_display` of `app/missions.py`
(not in the source tree).  Spec §4.3: "waiting" while only queued, "running"
while started, "took X" plus optional "waited Y" once completed; any negative
derived duration suppresses the display entirely. -/
def mission_timing_display (line : Line) (now : DT) : String :=
  let ts := extract_timestamps line
  match ts.completed, ts.started, ts.queued with
  | some c, some st, qOpt =>
    let took := dmin c st
    if took < 0 then ""
    else
      match qOpt with
      | some q =>
        let waited := dmin st q
        if waited < 0 then ""
        else if waited < 1 then ("took ") ++ format_duration (took * 60)
        else ("took ") ++ format_duration (took * 60) ++ (", waited ")
             ++ format_duration (waited * 60)
      | none => ("took ") ++ format_duration (took * 60)
  | some _, none, _ => ""
  | none, some st, _ =>
    let run := dmin now st
    if run < 0 then "" else ("running ") ++ format_duration (run * 60)
  | none, none, some q =>
    let w := dmin now q
    if w < 0 then "" else ("waiting ") ++ format_duration (w * 60)
  | none, none, none => ""

/-!
Document model.  Spec §3: a document is a leading title plus the ordered
sections Pending, In Progress and Done (each with one localized alias),
whose bodies are ordered lines kept verbatim.  The parser and renderer below
realize the tolerant text representation of spec §6 and §9.
-/

/-- The mission document: title lines, then the three section headers (kept
verbatim to preserve the alias spelling in use) with their body lines. -/
structure MDoc where
  title : List Line
  pendingHdr : Line
  pending : List Line
  inProgressHdr : Line
  inProgress : List Line
  doneHdr : Line
  done : List Line
deriving DecidableEq

/-- A line that opens any section: its stripped form starts with `## `. -/
def isHeaderLine (l : Line) : Bool := startsL (str ("## ")) (trimL l)

/-- Normalized form used for header alias matching: stripped and lowercased. -/
def normHdr (l : Line) : Line := lowerL (trimL l)

/-- Recognizer for the Pending header and its alias (spec §6). -/
def isPendingHdr (l : Line) : Bool :=
  normHdr l == str ("## en attente") || normHdr l == str ("## pending")

/-- Recognizer for the In Progress header and its alias (spec §6). -/
def isInProgressHdr (l : Line) : Bool :=
  normHdr l == str ("## en cours") || normHdr l == str ("## in progress")

/-- Recognizer for the Done header and its alias (spec §6). -/
def isDoneHdr (l : Line) : Bool :=
  normHdr l == str ("## terminées") || normHdr l == str ("## done")

/-- Body lines before the first header-like line. -/
def takeUntilHdr : List Line → List Line
  | [] => []
  | l :: t => if isHeaderLine l then [] else l :: takeUntilHdr t

/-- The rest of the document from the first header-like line on. -/
def dropUntilHdr : List Line → List Line
  | [] => []
  | l :: t => if isHeaderLine l then l :: t else dropUntilHdr t

/-- Tolerant document reader: accepts a title, then the Pending, In Progress
and Done sections in order (either alias spelling), with no other header
lines; every other input is rejected rather than misread. -/
def parseDoc (lines : List Line) : Option MDoc :=
  let title := takeUntilHdr lines
  match dropUntilHdr lines with
  | [] => none
  | ph :: r1 =>
    if isPendingHdr ph then
      let pend := takeUntilHdr r1
      match dropUntilHdr r1 with
      | [] => none
      | ih :: r3 =>
        if isInProgressHdr ih then
          let prog := takeUntilHdr r3
          match dropUntilHdr r3 with
          | [] => none
          | dh :: r5 =>
            if isDoneHdr dh ∧ dropUntilHdr r5 = [] then
              some ⟨title, ph, pend, ih, prog, dh, takeUntilHdr r5⟩
            else none
        else none
    else none

/-- Serialize a document back to its lines. -/
def render (d : MDoc) : List Line :=
  d.title ++ d.pendingHdr :: d.pending ++ d.inProgressHdr :: d.inProgress
    ++ d.doneHdr :: d.done

/-!
Mutation engine.  `app/missions.py` is not part of the source tree; the
operations are modelled from spec §4.1 with the stamp shapes pinned by the
tests.  Times are passed explicitly as the stamp text.
-/

/-- Whether a line already carries a queued stamp. -/
def hasQueuedStamp (l : Line) : Bool := hasSub (str ("⏳(")) l

/-- Append a queued stamp to an entry. -/
def stamp_queued (e now : Line) : Line := e ++ str (" ⏳(") ++ now ++ str (")")

/-- Append a started stamp to an entry. -/
def stamp_started (e now : Line) : Line := e ++ str (" ▶(") ++ now ++ str (")")

/-- Append a success completion stamp to an entry. -/
def stamp_completed (e now : Line) : Line := e ++ str (" ✅ (") ++ now ++ str (")")

/-- The line actually placed by insertion: stamped queued unless the text
already carries a queued stamp (spec §4.1, idempotent stamping). -/
def queuedLine (e now : Line) : Line :=
  if hasQueuedStamp e then e else stamp_queued e now

/-- The empty-queue placeholder sentinels (spec §4.1, §4.5). -/
def isPlaceholderLine (l : Line) : Bool :=
  trimL l == str ("(aucune)") || trimL l == str ("(none)")

/-- Modelled from the spec: `insert_mission` of `app/missions.py` (not in the
source tree).  Spec §4.1: stamp queued unless already stamped, remove the
empty placeholder, place at the top of Pending (after leading blank lines)
when urgent, else append. -/
def insert_mission (d : MDoc) (e : Line) (urgent : Bool) (now : Line) : MDoc :=
  let e' := queuedLine e now
  let pend0 := d.pending.filter (fun l => !isPlaceholderLine l)
  let pending' :=
    if urgent then
      pend0.takeWhile isBlankLine ++ e' :: pend0.dropWhile isBlankLine
    else pend0 ++ [e']
  { d with pending := pending' }

/-- Whether a pending or in-progress line matches the operation's target
text (spec §4.1: substring match). -/
def matchesKey (key l : Line) : Bool := hasSub key l

/-- First line satisfying `p`, together with the list with it removed. -/
def findRemove (p : Line → Bool) : List Line → Option (Line × List Line)
  | [] => none
  | l :: t =>
    if p l then some (l, t)
    else (findRemove p t).map (fun x => (x.1, l :: x.2))

/-- Modelled from the spec: `start_mission` of `app/missions.py` (not in the
source tree).  Spec §4.1: move the first matching Pending entry to
In Progress with a started stamp, preserving its queued stamp; no-op when no
entry matches. -/
def start_mission (d : MDoc) (key now : Line) : MDoc :=
  match findRemove (matchesKey key) d.pending with
  | none => d
  | some (l, rest) =>
    { d with pending := rest, inProgress := d.inProgress ++ [stamp_started l now] }

/-- Modelled from the spec: `complete_mission` of `app/missions.py` (not in
the source tree).  Spec §4.1: move the first matching In Progress entry to
Done with a completion stamp, preserving all prior stamps; no-op when no
entry matches. -/
def complete_mission (d : MDoc) (key now : Line) : MDoc :=
  match findRemove (matchesKey key) d.inProgress with
  | none => d
  | some (l, rest) =>
    { d with inProgress := rest, done := d.done ++ [stamp_completed l now] }

/-!
Recovery sweeper.  `recover.py` is not part of the source tree (only its
tests, `src/koan/test_recover.py`); the sweep is modelled from spec §4.5.
-/

/-- A `### ` sub-header opening a complex nested mission block (spec §6). -/
def isComplexHdr (l : Line) : Bool := startsL (str ("### ")) (trimL l)

/-- A flat single-line mission entry. -/
def isFlatLine (l : Line) : Bool := startsL (str ("- ")) (trimL l)

/-- A struck-through entry `- ~~...~~`, never recovered (spec §4.5). -/
def isStruckLine (l : Line) : Bool := startsL (str ("- ~~")) (trimL l)

/-- Split the In Progress body into kept lines and recovered lines.  The
boolean tracks membership in a complex block: a `### ` sub-header opens one
and a blank line closes it; lines inside a block are always kept, and only
flat, unstruck entries outside any block are recovered (spec §4.5, §3). -/
def recoverSplit (inC : Bool) : List Line → List Line × List Line
  | [] => ([], [])
  | l :: t =>
    if isComplexHdr l then
      let s := recoverSplit true t
      (l :: s.1, s.2)
    else if isBlankLine l then
      let s := recoverSplit false t
      (l :: s.1, s.2)
    else if inC then
      let s := recoverSplit true t
      (l :: s.1, s.2)
    else if isFlatLine l && !isStruckLine l then
      let s := recoverSplit false t
      (s.1, l :: s.2)
    else
      let s := recoverSplit false t
      (l :: s.1, s.2)

/-- The lines of the body that belong to a complex block (the sub-header and
everything below it up to a blank line). -/
def complexLines (inC : Bool) : List Line → List Line
  | [] => []
  | l :: t =>
    if isComplexHdr l then l :: complexLines true t
    else if isBlankLine l then complexLines false t
    else if inC then l :: complexLines true t
    else complexLines false t

/-- Drop characters through the next closing parenthesis. -/
def dropParen (l : Line) : Line := (l.dropWhile (fun c => !(c == ')'))).drop 1

theorem dropWhile_length_le (p : Char → Bool) (l : Line) :
    (l.dropWhile p).length ≤ l.length := by
  induction l with
  | nil => simp
  | cons c t ih =>
    by_cases h : p c
    · simp only [List.dropWhile, h]
      exact Nat.le_succ_of_le ih
    · simp [List.dropWhile, h]

theorem dropParen_length_le (l : Line) : (dropParen l).length ≤ l.length := by
  unfold dropParen
  calc ((l.dropWhile fun c => !(c == ')')).drop 1).length
      ≤ (l.dropWhile fun c => !(c == ')')).length := by
        simp [List.length_drop]
    _ ≤ l.length := dropWhile_length_le _ l

/-- Fuel-driven worker for `stripStarted`; each step consumes at least one
character, so the line's length is always enough fuel. -/
def stripStartedF : Nat → Line → Line
  | 0, l => l
  | _ + 1, [] => []
  | _ + 1, [c] => [c]
  | _ + 1, [c1, c2] => [c1, c2]
  | fuel + 1, c1 :: c2 :: c3 :: rest =>
    if c1 = ' ' ∧ c2 = '▶' ∧ c3 = '(' ∧
        ((rest.dropWhile (fun c => !(c == ')'))).isEmpty = false) then
      stripStartedF fuel (dropParen rest)
    else
      c1 :: stripStartedF fuel (c2 :: c3 :: rest)

/-- Modelled from the spec: discard the started stamp ` ▶(...)` from a
recovered line while preserving everything else (spec §4.5: the sweep keeps
the original queued timestamp and discards only the started stamp). -/
def stripStarted (l : Line) : Line := stripStartedF l.length l

/-- Append a recovered line to the queue unless already present verbatim
(spec §4.5: the sweep is idempotent per entry). -/
def insertIfNew (acc : List Line) (r : Line) : List Line :=
  if stripStarted r ∈ acc then acc else acc ++ [stripStarted r]

/-- Modelled from the spec: `recover_missions` of `recover.py` (not in the
source tree).  Spec §4.5: flat unstruck In Progress entries move back to
Pending (started stamp discarded, no verbatim duplicates, placeholders
removed first), complex blocks stay untouched, and the count of recovered
entries is returned. -/
def recover_missions (d : MDoc) : MDoc × Nat :=
  let s := recoverSplit false d.inProgress
  if s.2.isEmpty then (d, 0)
  else
    let pend0 := d.pending.filter (fun l => !isPlaceholderLine l)
    ({ d with pending := s.2.foldl insertIfNew pend0, inProgress := s.1 }, s.2.length)

/-!
Extraction.  Faithful embedding of `src/koan/extract_mission.py`.
-/

/-- A character the tag regex accepts inside the project name
(`[a-zA-Z0-9_-]` in `extract_mission.py` line 51). -/
def tagNameChar (c : Char) : Bool :=
  (('a' ≤ c && c ≤ 'z') || ('A' ≤ c && c ≤ 'Z') || c.isDigit || c == '_' || c == '-')

/-- Match the project name and closing bracket after the colon of a tag. -/
def tagName (r : Line) : Option Line :=
  let nm := r.takeWhile tagNameChar
  if nm.isEmpty then none
  else
    match r.drop nm.length with
    | ']' :: _ => some nm
    | _ => none

/-- Attempt the tag regex `\[projet?:([a-zA-Z0-9_-]+)\]` of
`extract_mission.py` line 51 at the head of the text.  Note the regex spells
`projet?` — it accepts `projet:` and `proje:` but not `project:`. -/
def tagAt : Line → Option Line
  | '[' :: 'p' :: 'r' :: 'o' :: 'j' :: 'e' :: rest =>
    match rest with
    | 't' :: ':' :: r => tagName r
    | ':' :: r => tagName r
    | _ => none
  | _ => none

/-- Embedding of `re.search` with the tag regex: first match anywhere in the
line, returning the captured project name. -/
def findTag : Line → Option Line
  | [] => none
  | c :: t =>
    match tagAt (c :: t) with
    | some nm => some nm
    | none => findTag t

/-- The scanning loop of `extract_next_mission` (`extract_mission.py` lines
29-59): track whether the cursor is inside the Pending section, leave on the
next header, skip non-`- ` lines, apply the project filter, and return the
first eligible line stripped. -/
def extractScan (proj : Line) : Bool → List Line → Line
  | _, [] => []
  | inPending, line :: rest =>
    let stripped := lowerL (trimL line)
    if stripped = str ("## en attente") ∨ stripped = str ("## pending") then
      extractScan proj true rest
    else if startsL (str ("## ")) stripped then
      (if inPending then [] else extractScan proj inPending rest)
    else if !inPending then extractScan proj inPending rest
    else if !(startsL (str ("- ")) (trimL line)) then extractScan proj inPending rest
    else if proj.isEmpty then trimL line
    else
      match findTag line with
      | some nm =>
        if lowerL nm = lowerL proj then trimL line else extractScan proj inPending rest
      | none => trimL line

/-- Embedding of Python `str.splitlines` for newline-separated text: split on
the line feed, without a trailing empty segment. -/
def splitNl : Line → List Line
  | [] => [[]]
  | '\n' :: t => [] :: splitNl t
  | c :: t =>
    match splitNl t with
    | s :: ss => (c :: s) :: ss
    | [] => [[c]]

/-- Python `splitlines` on a string given as characters. -/
def pySplitLines (cs : Line) : List Line :=
  let ps := splitNl cs
  if ps.getLast? = some [] then ps.dropLast else ps

/-- Embedding of `extract_next_mission` (`extract_mission.py` lines 21-59).
The file system is the optional content of the missions file; the function
returns the printed mission line and the file system it leaves behind, which
it never writes (a missing file yields the empty string, lines 24-25). -/
def extract_next_mission (fs : Option String) (proj : String) : String × Option String :=
  match fs with
  | none => ("", none)
  | some content =>
    ((extractScan proj.toList false (pySplitLines content.toList)).asString, some content)

/-!
Concurrency guard persistence.  Faithful trace embedding of the file
operations of `atomic_write` (`app/utils.py` lines 88-108) and of the
persistence path of `insert_pending_mission` (`app/utils.py` lines 148-174).
The file system tracks the original file and the temporary file; a reader
observes the original's content at any intermediate state.
-/

/-- One file operation performed while persisting the document. -/
inductive WOp where
  | createTemp
  | lockTemp
  | writeTemp (c : String)
  | flushTemp
  | closeTemp
  | replaceOrig
  | unlinkTemp
  | lockOrig
  | readOrig
  | seekOrig
  | truncOrig
  | writeOrig (c : String)
  | unlockOrig
deriving DecidableEq, Repr

/-- The two files a persistence step can touch. -/
structure FS where
  orig : Option String
  temp : Option String
deriving DecidableEq, Repr

/-- Effect of one file operation.  `replaceOrig` is the atomic rename of the
temporary file over the original; `truncOrig`/`writeOrig` mutate the original
in place. -/
def stepFS (fs : FS) : WOp → FS
  | .createTemp => { fs with temp := some "" }
  | .writeTemp c => { fs with temp := (fs.temp).map (fun s => s ++ c) }
  | .replaceOrig => { orig := fs.temp, temp := none }
  | .unlinkTemp => { fs with temp := none }
  | .truncOrig => { fs with orig := (fs.orig).map (fun _ => "") }
  | .writeOrig c => { fs with orig := (fs.orig).map (fun s => s ++ c) }
  | _ => fs

/-- Run a sequence of file operations. -/
def runFS (fs : FS) : List WOp → FS
  | [] => fs
  | op :: ops => runFS (stepFS fs op) ops

/-- The original-file contents a concurrent reader can observe while the
operations run (every intermediate state, initial and final included). -/
def origStates (fs : FS) : List WOp → List (Option String)
  | [] => [fs.orig]
  | op :: ops => fs.orig :: origStates (stepFS fs op) ops

/-- The file operations of `atomic_write` (`app/utils.py` lines 94-102):
make a temporary file in the same directory, lock it, write the new content,
flush and close, then atomically rename it over the original. -/
def atomic_write_ops (c : String) : List WOp :=
  [.createTemp, .lockTemp, .writeTemp c, .flushTemp, .closeTemp, .replaceOrig]

/-- A run of `atomic_write` that hits a hard I/O error after `k` operations:
the `except BaseException` handler (`app/utils.py` lines 103-108) unlinks the
temporary file and re-raises. -/
def atomic_write_fail_ops (c : String) (k : Nat) : List WOp :=
  (atomic_write_ops c).take k ++ [.unlinkTemp]

/-- The file operations of the persistence path of `insert_pending_mission`
(`app/utils.py` lines 148-174): open the missions file itself, lock it, read,
seek, truncate, and rewrite it in place, then unlock — no temporary file and
no rename. -/
def insert_pending_mission_ops (c : String) : List WOp :=
  [.lockOrig, .readOrig, .seekOrig, .truncOrig, .writeOrig c, .unlockOrig]

/-- A persistence trace of the temp-file kind the spec describes: the
original file is only ever touched by the final atomic rename, never written
or truncated directly. -/
def viaTempRename (ops : List WOp) : Bool :=
  ops.all (fun op =>
    match op with
    | .truncOrig => false
    | .writeOrig _ => false
    | _ => true) && (.replaceOrig : WOp) ∈ ops

/-!
Helper lemmas about the document reader, the renderer and the list
operations the mutation and recovery proofs rely on.
-/

theorem takeUntilHdr_not_header : ∀ {ls : List Line} {l : Line},
    l ∈ takeUntilHdr ls → isHeaderLine l = false := by
  intro ls
  induction ls with
  | nil => intro l h; simp [takeUntilHdr] at h
  | cons x t ih =>
    intro l h
    by_cases hx : isHeaderLine x = true
    · simp [takeUntilHdr, hx] at h
    · simp only [takeUntilHdr, hx, if_false, Bool.not_eq_true] at h
      rcases List.mem_cons.mp h with h | h
      · subst h; exact Bool.not_eq_true _ ▸ (Bool.eq_false_iff.mpr hx)
      · exact ih h

theorem dropUntilHdr_head : ∀ {ls : List Line} {x : Line} {r : List Line},
    dropUntilHdr ls = x :: r → isHeaderLine x = true := by
  intro ls
  induction ls with
  | nil => intro x r h; simp [dropUntilHdr] at h
  | cons y t ih =>
    intro x r h
    by_cases hy : isHeaderLine y = true
    · simp only [dropUntilHdr, hy, if_true] at h
      cases h
      exact hy
    · simp only [dropUntilHdr, hy, if_false] at h
      exact ih h

theorem takeUntil_append_dropUntil : ∀ ls : List Line,
    takeUntilHdr ls ++ dropUntilHdr ls = ls := by
  intro ls
  induction ls with
  | nil => simp [takeUntilHdr, dropUntilHdr]
  | cons x t ih =>
    by_cases hx : isHeaderLine x = true
    · simp [takeUntilHdr, dropUntilHdr, hx]
    · simp [takeUntilHdr, dropUntilHdr, hx, ih]

theorem takeUntil_of_dropUntil_nil {ls : List Line}
    (h : dropUntilHdr ls = []) : takeUntilHdr ls = ls := by
  have := takeUntil_append_dropUntil ls
  rw [h, List.append_nil] at this
  exact this

/-- Everything `parseDoc` guarantees about a successfully read document:
serializing restores the input, body lines are never header lines, and the
three stored headers are recognized headers. -/
theorem parseDoc_spec {lines : List Line} {d : MDoc} (h : parseDoc lines = some d) :
    render d = lines
    ∧ (∀ l ∈ d.title, isHeaderLine l = false)
    ∧ (∀ l ∈ d.pending, isHeaderLine l = false)
    ∧ (∀ l ∈ d.inProgress, isHeaderLine l = false)
    ∧ (∀ l ∈ d.done, isHeaderLine l = false)
    ∧ isPendingHdr d.pendingHdr = true ∧ isHeaderLine d.pendingHdr = true
    ∧ isInProgressHdr d.inProgressHdr = true ∧ isHeaderLine d.inProgressHdr = true
    ∧ isDoneHdr d.doneHdr = true ∧ isHeaderLine d.doneHdr = true := by
  simp only [parseDoc] at h
  cases h1 : dropUntilHdr lines with
  | nil => rw [h1] at h; exact absurd h (by simp)
  | cons ph r1 =>
    rw [h1] at h
    by_cases hph : isPendingHdr ph = true
    swap
    · simp [hph] at h
    simp only [hph, if_true] at h
    cases h2 : dropUntilHdr r1 with
    | nil => rw [h2] at h; exact absurd h (by simp)
    | cons ih r3 =>
      rw [h2] at h
      by_cases hih : isInProgressHdr ih = true
      swap
      · simp [hih] at h
      simp only [hih, if_true] at h
      cases h3 : dropUntilHdr r3 with
      | nil => rw [h3] at h; exact absurd h (by simp)
      | cons dh r5 =>
        rw [h3] at h
        by_cases hdh : isDoneHdr dh = true ∧ dropUntilHdr r5 = []
        swap
        · simp [hdh] at h
        simp only [if_pos hdh] at h
        have hd : d = ⟨takeUntilHdr lines, ph, takeUntilHdr r1, ih, takeUntilHdr r3,
            dh, takeUntilHdr r5⟩ := (Option.some.injEq _ _).mp h |>.symm
        subst hd
        have hren : render ⟨takeUntilHdr lines, ph, takeUntilHdr r1, ih, takeUntilHdr r3,
            dh, takeUntilHdr r5⟩ = lines := by
          simp only [render]
          rw [takeUntil_of_dropUntil_nil hdh.2]
          conv_rhs => rw [← takeUntil_append_dropUntil lines, h1]
          conv_rhs => rw [← takeUntil_append_dropUntil r1, h2]
          conv_rhs => rw [← takeUntil_append_dropUntil r3, h3]
          simp [List.append_assoc]
        refine ⟨hren, ?_, ?_, ?_, ?_, hph, dropUntilHdr_head h1, hih, dropUntilHdr_head h2,
          hdh.1, dropUntilHdr_head h3⟩
        · exact fun l hl => takeUntilHdr_not_header hl
        · exact fun l hl => takeUntilHdr_not_header hl
        · exact fun l hl => takeUntilHdr_not_header hl
        · exact fun l hl => takeUntilHdr_not_header hl

theorem pendHdr_ne_progHdr {a b : Line}
    (ha : isPendingHdr a = true) (hb : isInProgressHdr b = true) : a ≠ b := by
  intro he
  subst he
  simp only [isPendingHdr, isInProgressHdr, Bool.or_eq_true, beq_iff_eq] at ha hb
  rcases ha with h | h <;> rcases hb with h' | h' <;>
    (rw [h] at h'; exact absurd h' (by decide))

theorem pendHdr_ne_doneHdr {a b : Line}
    (ha : isPendingHdr a = true) (hb : isDoneHdr b = true) : a ≠ b := by
  intro he
  subst he
  simp only [isPendingHdr, isDoneHdr, Bool.or_eq_true, beq_iff_eq] at ha hb
  rcases ha with h | h <;> rcases hb with h' | h' <;>
    (rw [h] at h'; exact absurd h' (by decide))

theorem progHdr_ne_doneHdr {a b : Line}
    (ha : isInProgressHdr a = true) (hb : isDoneHdr b = true) : a ≠ b := by
  intro he
  subst he
  simp only [isInProgressHdr, isDoneHdr, Bool.or_eq_true, beq_iff_eq] at ha hb
  rcases ha with h | h <;> rcases hb with h' | h' <;>
    (rw [h] at h'; exact absurd h' (by decide))

/-- Occurrences of a line in a list of lines. -/
def countL (x : Line) : List Line → Nat
  | [] => 0
  | y :: t => (if y = x then 1 else 0) + countL x t

theorem countL_append (x : Line) : ∀ (a b : List Line),
    countL x (a ++ b) = countL x a + countL x b := by
  intro a b
  induction a with
  | nil => simp [countL]
  | cons y t ih => simp [countL, ih]; omega

theorem countL_eq_zero {x : Line} : ∀ {l : List Line}, countL x l = 0 ↔ x ∉ l := by
  intro l
  induction l with
  | nil => simp [countL]
  | cons y t ih =>
    by_cases hy : y = x
    · simp [countL, hy]
    · simp [countL, hy, ih, Ne.symm hy]

theorem countL_pos_of_mem {x : Line} : ∀ {l : List Line}, x ∈ l → 1 ≤ countL x l := by
  intro l
  induction l with
  | nil => intro h; simp at h
  | cons y t ih =>
    intro h
    rcases List.mem_cons.mp h with h | h
    · simp [countL, h.symm]
    · have := ih h
      simp only [countL]
      omega

theorem countL_filter_le (x : Line) (p : Line → Bool) : ∀ (l : List Line),
    countL x (l.filter p) ≤ countL x l := by
  intro l
  induction l with
  | nil => simp [countL]
  | cons y t ih =>
    by_cases hp : p y = true
    · simp only [List.filter_cons, hp, if_true, countL]
      omega
    · simp only [List.filter_cons, hp, if_false, Bool.false_eq_true, countL]
      omega

theorem countL_filter_eq {x : Line} {p : Line → Bool} (hx : p x = true) :
    ∀ (l : List Line), countL x (l.filter p) = countL x l := by
  intro l
  induction l with
  | nil => simp [countL]
  | cons y t ih =>
    by_cases hy : y = x
    · subst hy
      simp only [List.filter_cons, hx, if_true, countL, ih]
    · by_cases hp : p y = true
      · simp only [List.filter_cons, hp, if_true, countL, ih]
      · simp only [List.filter_cons, hp, if_false, Bool.false_eq_true, countL, ih, hy]
        omega

/-- Occurrences of a line in a rendered document, split per constituent. -/
theorem count_render_split (d : MDoc) (x : Line) :
    countL x (render d)
      = countL x d.title + ((if d.pendingHdr = x then 1 else 0) + countL x d.pending)
        + ((if d.inProgressHdr = x then 1 else 0) + countL x d.inProgress)
        + ((if d.doneHdr = x then 1 else 0) + countL x d.done) := by
  simp only [render, countL_append, countL]


theorem recoverSplit_cons_complex {l : Line} {t : List Line} (inC : Bool)
    (h : isComplexHdr l = true) :
    recoverSplit inC (l :: t) = (l :: (recoverSplit true t).1, (recoverSplit true t).2) := by
  simp [recoverSplit, h]

theorem recoverSplit_cons_blank {l : Line} {t : List Line} (inC : Bool)
    (h1 : isComplexHdr l = false) (h2 : isBlankLine l = true) :
    recoverSplit inC (l :: t) = (l :: (recoverSplit false t).1, (recoverSplit false t).2) := by
  simp [recoverSplit, h1, h2]

theorem recoverSplit_cons_inC {l : Line} {t : List Line}
    (h1 : isComplexHdr l = false) (h2 : isBlankLine l = false) :
    recoverSplit true (l :: t) = (l :: (recoverSplit true t).1, (recoverSplit true t).2) := by
  simp [recoverSplit, h1, h2]

theorem recoverSplit_cons_rec {l : Line} {t : List Line}
    (h1 : isComplexHdr l = false) (h2 : isBlankLine l = false)
    (h4 : (isFlatLine l && !isStruckLine l) = true) :
    recoverSplit false (l :: t) = ((recoverSplit false t).1, l :: (recoverSplit false t).2) := by
  simp [recoverSplit, h1, h2, h4]

theorem recoverSplit_cons_keep {l : Line} {t : List Line}
    (h1 : isComplexHdr l = false) (h2 : isBlankLine l = false)
    (h4 : (isFlatLine l && !isStruckLine l) = false) :
    recoverSplit false (l :: t) = (l :: (recoverSplit false t).1, (recoverSplit false t).2) := by
  simp [recoverSplit, h1, h2, h4]

theorem recoverSplit_rec_flat : ∀ (ls : List Line) (inC : Bool),
    ∀ r ∈ (recoverSplit inC ls).2, isFlatLine r = true ∧ isStruckLine r = false := by
  intro ls
  induction ls with
  | nil => intro inC r hr; simp [recoverSplit] at hr
  | cons l t ih =>
    intro inC r hr
    cases h1 : isComplexHdr l with
    | true =>
      rw [recoverSplit_cons_complex inC h1] at hr
      exact ih true r hr
    | false =>
      cases h2 : isBlankLine l with
      | true =>
        rw [recoverSplit_cons_blank inC h1 h2] at hr
        exact ih false r hr
      | false =>
        cases inC with
        | true =>
          rw [recoverSplit_cons_inC h1 h2] at hr
          exact ih true r hr
        | false =>
          cases h4 : (isFlatLine l && !isStruckLine l) with
          | true =>
            rw [recoverSplit_cons_rec h1 h2 h4] at hr
            rcases List.mem_cons.mp hr with h | h
            · subst h
              have h4' : isFlatLine r = true ∧ isStruckLine r = false := by
                simpa using h4
              exact h4'
            · exact ih false r h
          | false =>
            rw [recoverSplit_cons_keep h1 h2 h4] at hr
            exact ih false r hr

theorem recoverSplit_kept_sublist : ∀ (ls : List Line) (inC : Bool),
    ((recoverSplit inC ls).1).Sublist ls := by
  intro ls
  induction ls with
  | nil => intro inC; simp [recoverSplit]
  | cons l t ih =>
    intro inC
    cases h1 : isComplexHdr l with
    | true =>
      rw [recoverSplit_cons_complex inC h1]
      exact (ih true).cons₂ l
    | false =>
      cases h2 : isBlankLine l with
      | true =>
        rw [recoverSplit_cons_blank inC h1 h2]
        exact (ih false).cons₂ l
      | false =>
        cases inC with
        | true =>
          rw [recoverSplit_cons_inC h1 h2]
          exact (ih true).cons₂ l
        | false =>
          cases h4 : (isFlatLine l && !isStruckLine l) with
          | true =>
            rw [recoverSplit_cons_rec h1 h2 h4]
            exact (ih false).cons l
          | false =>
            rw [recoverSplit_cons_keep h1 h2 h4]
            exact (ih false).cons₂ l

theorem complexLines_sublist_kept : ∀ (ls : List Line) (inC : Bool),
    (complexLines inC ls).Sublist (recoverSplit inC ls).1 := by
  intro ls
  induction ls with
  | nil => intro inC; simp [recoverSplit, complexLines]
  | cons l t ih =>
    intro inC
    cases h1 : isComplexHdr l with
    | true =>
      rw [recoverSplit_cons_complex inC h1]
      simp only [complexLines, h1, if_true]
      exact (ih true).cons₂ l
    | false =>
      cases h2 : isBlankLine l with
      | true =>
        rw [recoverSplit_cons_blank inC h1 h2]
        simp only [complexLines, h1, h2, if_true, if_false, Bool.false_eq_true]
        exact (ih false).cons l
      | false =>
        cases inC with
        | true =>
          rw [recoverSplit_cons_inC h1 h2]
          simp only [complexLines, h1, h2, if_true, if_false, Bool.false_eq_true]
          exact (ih true).cons₂ l
        | false =>
          simp only [complexLines, h1, h2, if_false, Bool.false_eq_true]
          cases h4 : (isFlatLine l && !isStruckLine l) with
          | true =>
            rw [recoverSplit_cons_rec h1 h2 h4]
            exact ih false
          | false =>
            rw [recoverSplit_cons_keep h1 h2 h4]
            exact (ih false).cons l

theorem recoverSplit_nodrop : ∀ (ls : List Line) (inC : Bool),
    (recoverSplit inC ls).2 = [] → (recoverSplit inC ls).1 = ls := by
  intro ls
  induction ls with
  | nil => intro inC _; simp [recoverSplit]
  | cons l t ih =>
    intro inC h
    cases h1 : isComplexHdr l with
    | true =>
      rw [recoverSplit_cons_complex inC h1] at h ⊢
      rw [ih true h]
    | false =>
      cases h2 : isBlankLine l with
      | true =>
        rw [recoverSplit_cons_blank inC h1 h2] at h ⊢
        rw [ih false h]
      | false =>
        cases inC with
        | true =>
          rw [recoverSplit_cons_inC h1 h2] at h ⊢
          rw [ih true h]
        | false =>
          cases h4 : (isFlatLine l && !isStruckLine l) with
          | true =>
            rw [recoverSplit_cons_rec h1 h2 h4] at h
            simp at h
          | false =>
            rw [recoverSplit_cons_keep h1 h2 h4] at h ⊢
            rw [ih false h]

theorem insertIfNew_of_mem {acc : List Line} {r : Line}
    (h : stripStarted r ∈ acc) : insertIfNew acc r = acc := by
  unfold insertIfNew
  rw [if_pos h]

theorem insertIfNew_of_not_mem {acc : List Line} {r : Line}
    (h : stripStarted r ∉ acc) : insertIfNew acc r = acc ++ [stripStarted r] := by
  unfold insertIfNew
  rw [if_neg h]

theorem foldIns_mem : ∀ (rs : List Line) (acc : List Line) (l : Line),
    l ∈ rs.foldl insertIfNew acc → l ∈ acc ∨ ∃ r ∈ rs, stripStarted r = l := by
  intro rs
  induction rs with
  | nil => intro acc l h; exact Or.inl h
  | cons r rest ih =>
    intro acc l h
    simp only [List.foldl_cons] at h
    rcases ih (insertIfNew acc r) l h with h' | h'
    · by_cases hm : stripStarted r ∈ acc
      · rw [insertIfNew_of_mem hm] at h'
        exact Or.inl h'
      · rw [insertIfNew_of_not_mem hm] at h'
        rcases List.mem_append.mp h' with h'' | h''
        · exact Or.inl h''
        · exact Or.inr ⟨r, List.mem_cons_self r rest, (List.mem_singleton.mp h'').symm⟩
    · rcases h' with ⟨r0, hr0, he⟩
      exact Or.inr ⟨r0, List.mem_cons_of_mem r hr0, he⟩

theorem foldIns_count_of_mem : ∀ (rs : List Line) (acc : List Line) (l : Line),
    l ∈ acc → countL l (rs.foldl insertIfNew acc) = countL l acc := by
  intro rs
  induction rs with
  | nil => intro acc l _; rfl
  | cons r rest ih =>
    intro acc l hl
    simp only [List.foldl_cons]
    by_cases hm : stripStarted r ∈ acc
    · rw [insertIfNew_of_mem hm]
      exact ih acc l hl
    · rw [insertIfNew_of_not_mem hm]
      have hne : stripStarted r ≠ l := fun he => hm (he ▸ hl)
      have hcc : countL l (acc ++ [stripStarted r]) = countL l acc := by
        rw [countL_append]
        simp [countL, hne]
      rw [ih (acc ++ [stripStarted r]) l (List.mem_append_left _ hl), hcc]

theorem foldIns_count_one : ∀ (rs : List Line) (acc : List Line) (v : Line),
    countL v acc ≤ 1 → (v ∈ acc ∨ ∃ r ∈ rs, stripStarted r = v) →
    countL v (rs.foldl insertIfNew acc) = 1 := by
  intro rs
  induction rs with
  | nil =>
    intro acc v hc hm
    rcases hm with hm | hm
    · have := countL_pos_of_mem hm
      simp only [List.foldl_nil]
      omega
    · simp at hm
  | cons r rest ih =>
    intro acc v hc hm
    simp only [List.foldl_cons]
    by_cases hmem : stripStarted r ∈ acc
    · rw [insertIfNew_of_mem hmem]
      refine ih acc v hc ?_
      rcases hm with hm | ⟨r0, hr0, he⟩
      · exact Or.inl hm
      · rcases List.mem_cons.mp hr0 with h | h
        · subst h; exact Or.inl (he ▸ hmem)
        · exact Or.inr ⟨r0, h, he⟩
    · rw [insertIfNew_of_not_mem hmem]
      by_cases hv : stripStarted r = v
      · have hv0 : countL v acc = 0 := countL_eq_zero.mpr (fun hin => hmem (hv ▸ hin))
        refine ih (acc ++ [stripStarted r]) v ?_ (Or.inl ?_)
        · rw [countL_append, hv0]
          simp [countL, hv]
        · exact List.mem_append_right _ (hv ▸ List.mem_singleton_self v)
      · have hcc : countL v (acc ++ [stripStarted r]) = countL v acc := by
          rw [countL_append]
          simp [countL, hv]
        refine ih (acc ++ [stripStarted r]) v (by omega) ?_
        rcases hm with hm | ⟨r0, hr0, he⟩
        · exact Or.inl (List.mem_append_left _ hm)
        · rcases List.mem_cons.mp hr0 with h | h
          · subst h; exact absurd he hv
          · exact Or.inr ⟨r0, h, he⟩

theorem findRemove_none : ∀ {p : Line → Bool} {ls : List Line},
    (∀ l ∈ ls, p l = false) → findRemove p ls = none := by
  intro p ls
  induction ls with
  | nil => intro _; rfl
  | cons x t ih =>
    intro h
    have hx := h x (List.mem_cons_self x t)
    simp only [findRemove, hx, if_false, Bool.false_eq_true]
    rw [ih (fun l hl => h l (List.mem_cons_of_mem x hl))]
    rfl

theorem findRemove_append_last {p : Line → Bool} {x : Line} : ∀ {ls : List Line},
    (∀ l ∈ ls, p l = false) → p x = true →
    findRemove p (ls ++ [x]) = some (x, ls) := by
  intro ls
  induction ls with
  | nil => intro _ hx; simp [findRemove, hx]
  | cons y t ih =>
    intro h hx
    have hy := h y (List.mem_cons_self y t)
    simp only [List.cons_append, findRemove, hy, if_false, Bool.false_eq_true, List.append_eq]
    rw [ih (fun l hl => h l (List.mem_cons_of_mem y hl)) hx]
    rfl

theorem dropWhile_append_all {p : Line → Bool} : ∀ {l1 : List Line} (l2 : List Line),
    (∀ x ∈ l1, p x = true) → (l1 ++ l2).dropWhile p = l2.dropWhile p := by
  intro l1
  induction l1 with
  | nil => intro l2 _; rfl
  | cons x t ih =>
    intro l2 h
    have hx := h x (List.mem_cons_self x t)
    simp only [List.cons_append, List.dropWhile, hx]
    exact ih l2 (fun y hy => h y (List.mem_cons_of_mem x hy))

/-!
Claim theorems.
-/

/-- Claim C10: when the missions file does not exist at the given path,
`extract_next_mission` returns the empty string without failing, and the
file system is left untouched — no file and no default skeleton is created. -/
theorem extract_next_mission_missing_file (proj : String) :
    extract_next_mission none proj = ("", none) := rfl

/-- Concrete mission document whose pending entry is tagged for another
project using the documented `[project:NAME]` spelling. -/
def enTaggedDoc : String := "# Missions\n\n## Pending\n\n- [project:other] task\n\n## Done\n"

/-- The same document with the French `[projet:NAME]` tag spelling. -/
def frTaggedDoc : String := "# Missions\n\n## Pending\n\n- [projet:other] task\n\n## Done\n"

/-- The project filter used in the extraction scenarios. -/
def projKoan : String := "koan"

/-- A document whose pending section carries a tagged and an untagged entry. -/
def mixedDoc : String :=
  "# Missions\n\n## Pending\n\n- [projet:koan] task A\n- task B\n\n## Done\n- done thing\n"

/-- Claim C5, settled against the code: the tag regex of
`extract_mission.py` spells `projet?` and therefore never recognizes the
documented `[project:NAME]` spelling — an entry tagged `[project:other]` is
treated as untagged and returned to the `koan` filter instead of being
skipped, although the same entry written `[projet:other]` is skipped
correctly; the Pending-only scan itself behaves as claimed. -/
theorem extract_next_mission_tag_spelling_bug :
    (extract_next_mission (some enTaggedDoc) projKoan).1 = ("- [project:other] task")
    ∧ findTag (str ("- [project:other] task")) = none
    ∧ (extract_next_mission (some frTaggedDoc) projKoan).1 = ""
    ∧ findTag (str ("- [projet:other] task")) = some (str ("other"))
    ∧ (extract_next_mission (some mixedDoc) projKoan).1 = ("- [projet:koan] task A")
    ∧ (extract_next_mission (some mixedDoc) ("zzz")).1 = ("- task B") := by
  exact ⟨by decide, by decide, by decide, by decide, by decide, by decide⟩

/-- Claim C8: timestamp extraction is a total function, and each of the
queued, started and completed fields is absent whenever its positional
marker is missing from the line or the text inside the marker fails to
parse as a timestamp; on the doubly malformed line of the repository's
tests all three fields are absent. -/
theorem extract_timestamps_absent_on_malformed (line : Line) :
    ((findPayload (str ("⏳(")) line = none
        ∨ ∃ p, findPayload (str ("⏳(")) line = some p ∧ parseTS 'T' p = none) →
      (extract_timestamps line).queued = none)
    ∧ ((findPayload (str ("▶(")) line = none
        ∨ ∃ p, findPayload (str ("▶(")) line = some p ∧ parseTS 'T' p = none) →
      (extract_timestamps line).started = none)
    ∧ ((findPayload (str ("✅ (")) line = none
        ∨ ∃ p, findPayload (str ("✅ (")) line = some p ∧ parseTS ' ' p = none) →
      (findPayload (str ("❌ (")) line = none
        ∨ ∃ p, findPayload (str ("❌ (")) line = some p ∧ parseTS ' ' p = none) →
      (extract_timestamps line).completed = none)
    ∧ extract_timestamps (str ("- fix bug ⏳(not-a-date) ▶(also-bad)"))
      = ⟨none, none, none⟩ := by
  refine ⟨?_, ?_, ?_, by decide⟩
  · intro h
    simp only [extract_timestamps]
    rcases h with h | ⟨p, hp, hn⟩
    · rw [h]
    · rw [hp]
      exact hn
  · intro h
    simp only [extract_timestamps]
    rcases h with h | ⟨p, hp, hn⟩
    · rw [h]
    · rw [hp]
      exact hn
  · intro h1 h2
    simp only [extract_timestamps]
    rcases h1 with h1 | ⟨p, hp, hn⟩
    · rw [h1]
      rcases h2 with h2 | ⟨p2, hp2, hn2⟩
      · rw [h2]
      · rw [hp2]
        exact hn2
    · rw [hp]
      exact hn

/-- Claim C9: whenever the timestamps extracted from a mission line are out
of order — any derived duration (took, waited, running, waiting) would be
negative — the duration display is the empty string instead of a negative
value, in every branch of the display function. -/
theorem mission_timing_display_suppresses_negative (line : Line) (now : DT) :
    (∀ c st, (extract_timestamps line).completed = some c →
        (extract_timestamps line).started = some st → dmin c st < 0 →
        mission_timing_display line now = "")
    ∧ (∀ c st q, (extract_timestamps line).completed = some c →
        (extract_timestamps line).started = some st →
        (extract_timestamps line).queued = some q → dmin st q < 0 →
        mission_timing_display line now = "")
    ∧ (∀ st, (extract_timestamps line).completed = none →
        (extract_timestamps line).started = some st → dmin now st < 0 →
        mission_timing_display line now = "")
    ∧ (∀ q, (extract_timestamps line).completed = none →
        (extract_timestamps line).started = none →
        (extract_timestamps line).queued = some q → dmin now q < 0 →
        mission_timing_display line now = "") := by
  refine ⟨?_, ?_, ?_, ?_⟩
  · intro c st hc hst hneg
    simp only [mission_timing_display, hc, hst]
    rw [if_pos hneg]
  · intro c st q hc hst hq hneg
    simp only [mission_timing_display, hc, hst, hq]
    by_cases htook : dmin c st < 0
    · rw [if_pos htook]
    · rw [if_neg htook, if_pos hneg]
  · intro st hc hst hneg
    simp only [mission_timing_display, hc, hst]
    rw [if_pos hneg]
  · intro q hc hst hq hneg
    simp only [mission_timing_display, hc, hst, hq]
    rw [if_pos hneg]

/-- Claim C4: inserting an entry text that already carries a queued stamp
never stamps it again — the line placed into Pending is the entry text
unchanged, so the document holds exactly one queued stamp for that entry. -/
theorem insert_mission_no_double_stamp (d : MDoc) (e now : Line) (urgent : Bool)
    (h1 : countSub (str ("⏳(")) e = 1) :
    queuedLine e now = e
    ∧ e ∈ (insert_mission d e urgent now).pending
    ∧ countSub (str ("⏳(")) (queuedLine e now) = 1 := by
  have hq : hasQueuedStamp e = true := hasSub_of_countSub_one h1
  have he : queuedLine e now = e := by simp [queuedLine, hq]
  refine ⟨he, ?_, by rw [he]; exact h1⟩
  cases urgent with
  | false =>
    simp only [insert_mission, Bool.false_eq_true, if_false, he]
    exact List.mem_append_right _ (List.mem_singleton_self e)
  | true =>
    simp only [insert_mission, if_true, he]
    exact List.mem_append_right _ (List.mem_cons_self e _)

/-- Claim C6: a non-urgent insertion appends the stamped entry at the very
end of the Pending section, leaving every existing pending line in place
and in order ahead of it; an urgent insertion places the stamped entry at
the top of Pending, immediately after any leading blank lines, so it is the
first non-blank pending line. -/
theorem insert_mission_placement (d : MDoc) (e now : Line)
    (hp : ∀ l ∈ d.pending, isPlaceholderLine l = false)
    (he : isBlankLine (queuedLine e now) = false) :
    (insert_mission d e false now).pending = d.pending ++ [queuedLine e now]
    ∧ ((insert_mission d e true now).pending).dropWhile isBlankLine
      = queuedLine e now :: d.pending.dropWhile isBlankLine := by
  have hfil : d.pending.filter (fun l => !isPlaceholderLine l) = d.pending :=
    List.filter_eq_self.mpr (fun a ha => by rw [hp a ha]; rfl)
  constructor
  · simp only [insert_mission, Bool.false_eq_true, if_false, hfil]
  · simp only [insert_mission, if_true, hfil]
    rw [dropWhile_append_all _ (fun x hx => List.mem_takeWhile_imp hx)]
    simp only [List.dropWhile_cons, he, Bool.false_eq_true, if_false]

/-- Claim C3: for an entry inserted into any document in which no other
pending or in-progress line matches the operation key, the composition
complete ∘ start ∘ insert lands the entry's line in Done carrying the
original queued stamp and the started stamp unchanged plus the new
completion stamp — the final line is exactly the entry text with the three
stamps appended in order, and each stamp occurs in it verbatim. -/
theorem mission_lifecycle_round_trip (d : MDoc) (e key t1 t2 t3 : Line)
    (hq : hasQueuedStamp e = false)
    (hk : hasSub key e = true)
    (hp : ∀ l ∈ d.pending, matchesKey key l = false)
    (hi : ∀ l ∈ d.inProgress, matchesKey key l = false) :
    (complete_mission (start_mission (insert_mission d e false t1) key t2) key t3).done
      = d.done ++ [stamp_completed (stamp_started (stamp_queued e t1) t2) t3]
    ∧ hasSub (str (" ⏳(") ++ t1 ++ str (")"))
        (stamp_completed (stamp_started (stamp_queued e t1) t2) t3) = true
    ∧ hasSub (str (" ▶(") ++ t2 ++ str (")"))
        (stamp_completed (stamp_started (stamp_queued e t1) t2) t3) = true
    ∧ hasSub (str (" ✅ (") ++ t3 ++ str (")"))
        (stamp_completed (stamp_started (stamp_queued e t1) t2) t3) = true := by
  have he' : queuedLine e t1 = stamp_queued e t1 := by simp [queuedLine, hq]
  have hins : (insert_mission d e false t1).pending
      = d.pending.filter (fun l => !isPlaceholderLine l) ++ [stamp_queued e t1] := by
    simp only [insert_mission, Bool.false_eq_true, if_false, he']
  have hinsP : (insert_mission d e false t1).inProgress = d.inProgress := rfl
  have hinsD : (insert_mission d e false t1).done = d.done := rfl
  have hp0 : ∀ l ∈ d.pending.filter (fun l => !isPlaceholderLine l),
      matchesKey key l = false :=
    fun l hl => hp l (List.mem_of_mem_filter hl)
  have hm1 : matchesKey key (stamp_queued e t1) = true := by
    unfold matchesKey stamp_queued
    exact hasSub_append_right _ (hasSub_append_right _ (hasSub_append_right _ hk))
  have hfind1 : findRemove (matchesKey key) (insert_mission d e false t1).pending
      = some (stamp_queued e t1, d.pending.filter (fun l => !isPlaceholderLine l)) := by
    rw [hins]
    exact findRemove_append_last hp0 hm1
  have hstartP : (start_mission (insert_mission d e false t1) key t2).inProgress
      = d.inProgress ++ [stamp_started (stamp_queued e t1) t2] := by
    unfold start_mission
    rw [hfind1, hinsP]
  have hstartD : (start_mission (insert_mission d e false t1) key t2).done = d.done := by
    unfold start_mission
    rw [hfind1, hinsD]
  have hm2 : matchesKey key (stamp_started (stamp_queued e t1) t2) = true := by
    unfold matchesKey stamp_started
    exact hasSub_append_right _ (hasSub_append_right _ (hasSub_append_right _ hm1))
  have hfind2 : findRemove (matchesKey key)
      (start_mission (insert_mission d e false t1) key t2).inProgress
      = some (stamp_started (stamp_queued e t1) t2, d.inProgress) := by
    rw [hstartP]
    exact findRemove_append_last hi hm2
  refine ⟨?_, ?_, ?_, ?_⟩
  · unfold complete_mission
    rw [hfind2, hstartD]
  · have hsplit : stamp_completed (stamp_started (stamp_queued e t1) t2) t3
        = e ++ (str (" ⏳(") ++ t1 ++ str (")"))
          ++ (str (" ▶(") ++ t2 ++ str (")") ++ (str (" ✅ (") ++ t3 ++ str (")"))) := by
      simp [stamp_queued, stamp_started, stamp_completed, List.append_assoc]
    rw [hsplit]
    exact hasSub_middle _ _ _
  · have hsplit : stamp_completed (stamp_started (stamp_queued e t1) t2) t3
        = stamp_queued e t1 ++ (str (" ▶(") ++ t2 ++ str (")"))
          ++ (str (" ✅ (") ++ t3 ++ str (")")) := by
      simp [stamp_queued, stamp_started, stamp_completed, List.append_assoc]
    rw [hsplit]
    exact hasSub_middle _ _ _
  · have hsplit : stamp_completed (stamp_started (stamp_queued e t1) t2) t3
        = stamp_started (stamp_queued e t1) t2 ++ (str (" ✅ (") ++ t3 ++ str (")")) ++ [] := by
      simp [stamp_queued, stamp_started, stamp_completed, List.append_assoc]
    rw [hsplit]
    exact hasSub_middle _ _ _

/-- The two evaluation regimes of the sweep: nothing to recover leaves the
document (and the count zero), otherwise the pending and in-progress bodies
are rebuilt and the count is the number of recovered lines. -/
theorem recover_missions_eq (d : MDoc) :
    ((recoverSplit false d.inProgress).2 = [] ∧ recover_missions d = (d, 0))
    ∨ ((recoverSplit false d.inProgress).2 ≠ [] ∧ recover_missions d =
        ({ d with
            pending := (recoverSplit false d.inProgress).2.foldl insertIfNew
              (d.pending.filter (fun l => !isPlaceholderLine l)),
            inProgress := (recoverSplit false d.inProgress).1 },
          (recoverSplit false d.inProgress).2.length)) := by
  by_cases hrec : (recoverSplit false d.inProgress).2.isEmpty = true
  · exact Or.inl ⟨List.isEmpty_iff.mp hrec, by simp [recover_missions, hrec]⟩
  · rw [Bool.not_eq_true] at hrec
    refine Or.inr ⟨fun h => by simp [h] at hrec, ?_⟩
    simp [recover_missions, hrec]

/-- Claim C1: the sweep recovers exactly the flat, unstruck In Progress
entries that lie outside complex blocks and returns their number; every
struck-through or complex-block line is excluded from recovery, In Progress
only ever loses lines (complex blocks are kept verbatim, in order), and
every line the sweep adds to Pending is the stamp-stripped form of a
recovered flat unstruck entry. -/
theorem recover_missions_flat_only (d : MDoc) :
    (recover_missions d).2 = (recoverSplit false d.inProgress).2.length
    ∧ (∀ r ∈ (recoverSplit false d.inProgress).2,
        isFlatLine r = true ∧ isStruckLine r = false)
    ∧ (recover_missions d).1.inProgress = (recoverSplit false d.inProgress).1
    ∧ ((recover_missions d).1.inProgress).Sublist d.inProgress
    ∧ (complexLines false d.inProgress).Sublist (recover_missions d).1.inProgress
    ∧ (∀ l ∈ (recover_missions d).1.pending,
        l ∈ d.pending ∨ ∃ r ∈ (recoverSplit false d.inProgress).2, stripStarted r = l) := by
  rcases recover_missions_eq d with ⟨hnil, hEq⟩ | ⟨hne, hEq⟩
  · have hKeep := recoverSplit_nodrop d.inProgress false hnil
    rw [hEq]
    refine ⟨by rw [hnil]; rfl, recoverSplit_rec_flat _ _, hKeep.symm, List.Sublist.refl _,
      ?_, fun l hl => Or.inl hl⟩
    · have := complexLines_sublist_kept d.inProgress false
      rw [hKeep] at this
      exact this
  · rw [hEq]
    refine ⟨rfl, recoverSplit_rec_flat _ _, rfl, recoverSplit_kept_sublist _ _,
      complexLines_sublist_kept _ _, ?_⟩
    intro l hl
    rcases foldIns_mem _ _ _ hl with h | h
    · exact Or.inl (List.mem_of_mem_filter h)
    · exact Or.inr h

theorem countL_zero_of_not_header {x : Line} {body : List Line}
    (hx : isHeaderLine x = true) (hb : ∀ l ∈ body, isHeaderLine l = false) :
    countL x body = 0 :=
  countL_eq_zero.mpr (fun hm => by
    have h := hb x hm
    rw [hx] at h
    exact Bool.noConfusion h)

theorem countL_render_header (d2 : MDoc) (x : Line)
    (hx : isHeaderLine x = true)
    (ht : ∀ l ∈ d2.title, isHeaderLine l = false)
    (hp : ∀ l ∈ d2.pending, isHeaderLine l = false)
    (hi : ∀ l ∈ d2.inProgress, isHeaderLine l = false)
    (hd : ∀ l ∈ d2.done, isHeaderLine l = false)
    (hsum : (if d2.pendingHdr = x then 1 else 0) + (if d2.inProgressHdr = x then 1 else 0)
        + (if d2.doneHdr = x then 1 else 0) = 1) :
    countL x (render d2) = 1 := by
  rw [count_render_split, countL_zero_of_not_header hx ht, countL_zero_of_not_header hx hp,
    countL_zero_of_not_header hx hi, countL_zero_of_not_header hx hd]
  omega

/-- Claim C2: with a well-formed document, the sweep never duplicates
section headers (each counts one before and after), never changes the
multiplicity of a pending line that is already present (so a line present
verbatim is not reinserted), and leaves each recovered entry exactly once
in Pending and — when its text occurs nowhere else — exactly once in the
whole resulting document. -/
theorem recover_missions_no_duplication (lines : List Line) (d : MDoc)
    (hparse : parseDoc lines = some d)
    (hnohdr : ∀ r ∈ (recoverSplit false d.inProgress).2,
        isHeaderLine (stripStarted r) = false) :
    (countL d.pendingHdr lines = 1 ∧ countL d.inProgressHdr lines = 1
      ∧ countL d.doneHdr lines = 1)
    ∧ (countL d.pendingHdr (render (recover_missions d).1) = 1
      ∧ countL d.inProgressHdr (render (recover_missions d).1) = 1
      ∧ countL d.doneHdr (render (recover_missions d).1) = 1)
    ∧ (∀ l, isPlaceholderLine l = false → l ∈ d.pending →
        countL l (recover_missions d).1.pending = countL l d.pending)
    ∧ (∀ r ∈ (recoverSplit false d.inProgress).2,
        countL (stripStarted r) d.pending ≤ 1 →
        countL (stripStarted r) (recover_missions d).1.pending = 1)
    ∧ (∀ r ∈ (recoverSplit false d.inProgress).2,
        countL (stripStarted r) d.pending ≤ 1 →
        stripStarted r ∉ d.title → stripStarted r ∉ d.done →
        stripStarted r ∉ (recoverSplit false d.inProgress).1 →
        countL (stripStarted r) (render (recover_missions d).1) = 1) := by
  obtain ⟨hren, htitle, hpend, hprog, hdone, hpdT, hpdH, hihT, hihH, hdoT, hdoH⟩ :=
    parseDoc_spec hparse
  have hne1 : d.pendingHdr ≠ d.inProgressHdr := pendHdr_ne_progHdr hpdT hihT
  have hne2 : d.pendingHdr ≠ d.doneHdr := pendHdr_ne_doneHdr hpdT hdoT
  have hne3 : d.inProgressHdr ≠ d.doneHdr := progHdr_ne_doneHdr hihT hdoT
  have hsumP : (if d.pendingHdr = d.pendingHdr then 1 else 0)
      + (if d.inProgressHdr = d.pendingHdr then 1 else 0)
      + (if d.doneHdr = d.pendingHdr then 1 else 0) = 1 := by
    rw [if_pos rfl, if_neg (Ne.symm hne1), if_neg (Ne.symm hne2)]
  have hsumI : (if d.pendingHdr = d.inProgressHdr then 1 else 0)
      + (if d.inProgressHdr = d.inProgressHdr then 1 else 0)
      + (if d.doneHdr = d.inProgressHdr then 1 else 0) = 1 := by
    rw [if_pos rfl, if_neg hne1, if_neg (Ne.symm hne3)]
  have hsumD : (if d.pendingHdr = d.doneHdr then 1 else 0)
      + (if d.inProgressHdr = d.doneHdr then 1 else 0)
      + (if d.doneHdr = d.doneHdr then 1 else 0) = 1 := by
    rw [if_pos rfl, if_neg hne2, if_neg hne3]
  have hbefore : countL d.pendingHdr lines = 1 ∧ countL d.inProgressHdr lines = 1
      ∧ countL d.doneHdr lines = 1 := by
    rw [← hren]
    exact ⟨countL_render_header d _ hpdH htitle hpend hprog hdone hsumP,
      countL_render_header d _ hihH htitle hpend hprog hdone hsumI,
      countL_render_header d _ hdoH htitle hpend hprog hdone hsumD⟩
  rcases recover_missions_eq d with ⟨hnil, hEq⟩ | ⟨hne, hEq⟩
  · rw [hEq]
    refine ⟨hbefore, ?_, fun l _ _ => rfl, ?_, ?_⟩
    · rw [← hren] at hbefore
      exact hbefore
    · intro r hr
      rw [hnil] at hr
      simp at hr
    · intro r hr
      rw [hnil] at hr
      simp at hr
  · have hpend0 : ∀ l ∈ d.pending.filter (fun l => !isPlaceholderLine l),
        isHeaderLine l = false :=
      fun l hl => hpend l (List.mem_of_mem_filter hl)
    have hpendAfter : ∀ l ∈ (recoverSplit false d.inProgress).2.foldl insertIfNew
        (d.pending.filter (fun l => !isPlaceholderLine l)), isHeaderLine l = false := by
      intro l hl
      rcases foldIns_mem _ _ _ hl with h | ⟨r, hr, he⟩
      · exact hpend0 l h
      · rw [← he]
        exact hnohdr r hr
    have hkept : ∀ l ∈ (recoverSplit false d.inProgress).1, isHeaderLine l = false :=
      fun l hl => hprog l ((recoverSplit_kept_sublist d.inProgress false).mem hl)
    rw [hEq]
    refine ⟨hbefore, ⟨?_, ?_, ?_⟩, ?_, ?_, ?_⟩
    · exact countL_render_header _ _ hpdH htitle hpendAfter hkept hdone hsumP
    · exact countL_render_header _ _ hihH htitle hpendAfter hkept hdone hsumI
    · exact countL_render_header _ _ hdoH htitle hpendAfter hkept hdone hsumD
    · intro l hpl hlmem
      have hlp0 : l ∈ d.pending.filter (fun l => !isPlaceholderLine l) :=
        List.mem_filter.mpr ⟨hlmem, by rw [hpl]; rfl⟩
      show countL l ((recoverSplit false d.inProgress).2.foldl insertIfNew
        (d.pending.filter (fun l => !isPlaceholderLine l))) = countL l d.pending
      rw [foldIns_count_of_mem _ _ _ hlp0, countL_filter_eq (by rw [hpl]; rfl)]
    · intro r hr hc1
      have hle : countL (stripStarted r)
          (d.pending.filter (fun l => !isPlaceholderLine l)) ≤ 1 :=
        le_trans (countL_filter_le _ _ _) hc1
      exact foldIns_count_one _ _ _ hle (Or.inr ⟨r, hr, rfl⟩)
    · intro r hr hc1 hnt hnd hnk
      have hxh : isHeaderLine (stripStarted r) = false := hnohdr r hr
      have hle : countL (stripStarted r)
          (d.pending.filter (fun l => !isPlaceholderLine l)) ≤ 1 :=
        le_trans (countL_filter_le _ _ _) hc1
      have hfold : countL (stripStarted r) ((recoverSplit false d.inProgress).2.foldl
          insertIfNew (d.pending.filter (fun l => !isPlaceholderLine l))) = 1 :=
        foldIns_count_one _ _ _ hle (Or.inr ⟨r, hr, rfl⟩)
      have hif1 : ¬(d.pendingHdr = stripStarted r) := fun he => by
        rw [← he] at hxh
        rw [hpdH] at hxh
        exact Bool.noConfusion hxh
      have hif2 : ¬(d.inProgressHdr = stripStarted r) := fun he => by
        rw [← he] at hxh
        rw [hihH] at hxh
        exact Bool.noConfusion hxh
      have hif3 : ¬(d.doneHdr = stripStarted r) := fun he => by
        rw [← he] at hxh
        rw [hdoH] at hxh
        exact Bool.noConfusion hxh
      show countL (stripStarted r) (render
        { d with
            pending := (recoverSplit false d.inProgress).2.foldl insertIfNew
              (d.pending.filter (fun l => !isPlaceholderLine l)),
            inProgress := (recoverSplit false d.inProgress).1 }) = 1
      rw [count_render_split]
      show countL (stripStarted r) d.title
          + ((if d.pendingHdr = stripStarted r then 1 else 0)
            + countL (stripStarted r) ((recoverSplit false d.inProgress).2.foldl insertIfNew
              (d.pending.filter (fun l => !isPlaceholderLine l))))
          + ((if d.inProgressHdr = stripStarted r then 1 else 0)
            + countL (stripStarted r) (recoverSplit false d.inProgress).1)
          + ((if d.doneHdr = stripStarted r then 1 else 0)
            + countL (stripStarted r) d.done) = 1
      rw [countL_eq_zero.mpr hnt, countL_eq_zero.mpr hnk, countL_eq_zero.mpr hnd,
        if_neg hif1, if_neg hif2, if_neg hif3, hfold]

/-- Document content on disk before a mutation, in the C7 scenarios. -/
def oldContentC7 : String := "# Missions\n\n## Pending\n\n- old task\n\n## Done\n"

/-- Document content a mutation wants to persist, in the C7 scenarios. -/
def newContentC7 : String := "# Missions\n\n## Pending\n\n- old task\n- new task\n\n## Done\n"

/-- Claim C7, settled against the code: the persistence path of
`insert_pending_mission` is not of the temp-file-and-rename kind — it
truncates and rewrites the missions file in place under an advisory lock,
and between the truncate and the write a reader of the file observes an
empty document that is neither the old nor the new content. -/
theorem insert_pending_mission_writes_in_place :
    viaTempRename (insert_pending_mission_ops newContentC7) = false
    ∧ WOp.truncOrig ∈ insert_pending_mission_ops newContentC7
    ∧ WOp.replaceOrig ∉ insert_pending_mission_ops newContentC7
    ∧ some "" ∈ origStates ⟨some oldContentC7, none⟩ (insert_pending_mission_ops newContentC7)
    ∧ ("" : String) ≠ oldContentC7 ∧ ("" : String) ≠ newContentC7 := by
  exact ⟨by decide, by decide, by decide, by decide, by decide, by decide⟩

/-- Claim C7 as amended: `atomic_write` itself persists through a temporary
file and an atomic rename — a failure at any point before the rename leaves
the original untouched and discards the temporary file, the completed run
installs exactly the new content, and no intermediate state shows anything
but the old or the new content; `insert_pending_mission`, however, persists
in place rather than through `atomic_write`. -/
theorem atomic_write_crash_safety (c : String) (fs : FS) (k : Nat)
    (hk : k < (atomic_write_ops c).length) :
    (runFS fs (atomic_write_fail_ops c k)).orig = fs.orig
    ∧ (runFS fs (atomic_write_fail_ops c k)).temp = none
    ∧ (runFS fs (atomic_write_ops c)).orig = some c
    ∧ (∀ s ∈ origStates fs (atomic_write_ops c), s = fs.orig ∨ s = some c)
    ∧ viaTempRename (atomic_write_ops c) = true
    ∧ viaTempRename (insert_pending_mission_ops c) = false := by
  have hk6 : k < 6 := hk
  refine ⟨?_, ?_, ?_, ?_, ?_, ?_⟩
  · interval_cases k <;>
      simp [atomic_write_fail_ops, atomic_write_ops, runFS, stepFS, List.take]
  · interval_cases k <;>
      simp [atomic_write_fail_ops, atomic_write_ops, runFS, stepFS, List.take]
  · simp [atomic_write_ops, runFS, stepFS]
  · intro s hs
    simp [atomic_write_ops, origStates, stepFS] at hs
    tauto
  · simp [viaTempRename, atomic_write_ops]
  · simp [viaTempRename, insert_pending_mission_ops]

/-!
Witness instances: each claim theorem applied at a concrete input.
-/

/-- The default empty skeleton document. -/
def emptyDoc : MDoc :=
  ⟨[str ("# Missions"), str ("")], str ("## Pending"), [],
   str ("## In Progress"), [], str ("## Done"), []⟩

/-- The In Progress body of the complex-block recovery scenario. -/
def scDoc : MDoc :=
  ⟨[str ("# Missions"), str ("")],
   str ("## En attente"), [str ("")],
   str ("## En cours"),
   [str (""), str ("### Big project"), str ("- ~~step 1~~ done"), str ("- step 2"),
    str (""), str ("- Simple task"), str ("")],
   str ("## Terminées"), [str ("")]⟩

/-- The duplicate-guard recovery scenario, as parsed lines. -/
def dupLines : List Line :=
  [str ("# Missions"), str (""), str ("## En attente"), str (""), str ("- Existing task"),
   str (""), str ("## En cours"), str (""), str ("- Stale task"), str (""),
   str ("## Terminées"), str ("")]

/-- The duplicate-guard recovery scenario, as a document. -/
def dupDoc : MDoc :=
  ⟨[str ("# Missions"), str ("")],
   str ("## En attente"), [str (""), str ("- Existing task"), str ("")],
   str ("## En cours"), [str (""), str ("- Stale task"), str ("")],
   str ("## Terminées"), [str ("")]⟩

theorem recover_missions_flat_only_witness :
    (recover_missions scDoc).2 = (recoverSplit false scDoc.inProgress).2.length
    ∧ (isFlatLine (str ("- Simple task")) = true
      ∧ isStruckLine (str ("- Simple task")) = false)
    ∧ (recover_missions scDoc).1.inProgress = (recoverSplit false scDoc.inProgress).1 := by
  have h := recover_missions_flat_only scDoc
  exact ⟨h.1, h.2.1 (str ("- Simple task")) (by decide), h.2.2.1⟩

theorem recover_missions_no_duplication_witness :
    countL (str ("## En attente")) dupLines = 1
    ∧ countL (str ("## En attente")) (render (recover_missions dupDoc).1) = 1
    ∧ countL (str ("- Stale task")) (render (recover_missions dupDoc).1) = 1 := by
  have h := recover_missions_no_duplication dupLines dupDoc (by decide) (by decide)
  exact ⟨h.1.1, h.2.1.1,
    h.2.2.2.2 (str ("- Stale task")) (by decide) (by decide) (by decide) (by decide)
      (by decide)⟩

theorem mission_lifecycle_round_trip_witness :
    (complete_mission (start_mission (insert_mission emptyDoc
        (str ("- [projet:koan] add feature")) false (str ("2026-02-12T10:00")))
        (str ("add feature")) (str ("2026-02-12T10:05")))
        (str ("add feature")) (str ("2026-02-12 10:35"))).done
      = [stamp_completed (stamp_started (stamp_queued (str ("- [projet:koan] add feature"))
          (str ("2026-02-12T10:00"))) (str ("2026-02-12T10:05"))) (str ("2026-02-12 10:35"))] := by
  have h := mission_lifecycle_round_trip emptyDoc (str ("- [projet:koan] add feature"))
    (str ("add feature")) (str ("2026-02-12T10:00")) (str ("2026-02-12T10:05"))
    (str ("2026-02-12 10:35")) (by decide) (by decide)
    (by intro l hl; exact absurd hl (List.not_mem_nil l))
    (by intro l hl; exact absurd hl (List.not_mem_nil l))
  exact h.1

theorem insert_mission_no_double_stamp_witness :
    queuedLine (str ("- fix bug ⏳(2026-02-12T04:00)")) (str ("2026-02-12T05:00"))
      = str ("- fix bug ⏳(2026-02-12T04:00)")
    ∧ countSub (str ("⏳("))
        (queuedLine (str ("- fix bug ⏳(2026-02-12T04:00)")) (str ("2026-02-12T05:00"))) = 1 := by
  have h := insert_mission_no_double_stamp emptyDoc (str ("- fix bug ⏳(2026-02-12T04:00)"))
    (str ("2026-02-12T05:00")) false (by decide)
  exact ⟨h.1, h.2.2⟩

theorem insert_mission_placement_witness :
    (insert_mission emptyDoc (str ("- task")) false (str ("2026-02-12T05:00"))).pending
      = [queuedLine (str ("- task")) (str ("2026-02-12T05:00"))] := by
  have h := insert_mission_placement emptyDoc (str ("- task")) (str ("2026-02-12T05:00"))
    (by intro l hl; exact absurd hl (List.not_mem_nil l)) (by decide)
  exact h.1

theorem extract_timestamps_absent_on_malformed_witness :
    (extract_timestamps (str ("- fix bug ⏳(not-a-date) ▶(also-bad)"))).queued = none := by
  have h := extract_timestamps_absent_on_malformed (str ("- fix bug ⏳(not-a-date) ▶(also-bad)"))
  exact h.1 (Or.inr ⟨str ("not-a-date"), by decide, by decide⟩)

theorem mission_timing_display_suppresses_negative_witness :
    mission_timing_display
      (str ("- bug ⏳(2026-02-12T04:20) ▶(2026-02-12T04:15) ✅ (2026-02-12 04:10)"))
      ⟨2026, 2, 12, 5, 0⟩ = "" := by
  have h := mission_timing_display_suppresses_negative
    (str ("- bug ⏳(2026-02-12T04:20) ▶(2026-02-12T04:15) ✅ (2026-02-12 04:10)"))
    ⟨2026, 2, 12, 5, 0⟩
  exact h.1 ⟨2026, 2, 12, 4, 10⟩ ⟨2026, 2, 12, 4, 15⟩ (by decide) (by decide) (by decide)

theorem atomic_write_crash_safety_witness :
    (runFS ⟨some oldContentC7, none⟩ (atomic_write_fail_ops newContentC7 2)).orig
      = some oldContentC7
    ∧ (runFS ⟨some oldContentC7, none⟩ (atomic_write_ops newContentC7)).orig
      = some newContentC7 := by
  have h := atomic_write_crash_safety newContentC7 ⟨some oldContentC7, none⟩ 2 (by decide)
  exact ⟨h.1, h.2.2.1⟩
